import Mathlib

/-!
Verification development for the spreadsheet engine in `Spreadsheet.cpp`.

The C++ program is shallowly embedded below.  Machine `int` arithmetic is
modelled by unbounded `Int` (signed overflow is undefined behaviour in the
source, and every input considered here is far from the `int` range); the
`std::stoi` range check is modelled explicitly.  `std::unordered_map` /
`std::unordered_set` are modelled by association lists and membership lists;
since the iteration order of `std::unordered_map` is unspecified, every
pipeline function that iterates over the registry takes the iteration order
as an explicit list parameter.  The recursive depth-first traversal is
modelled with an explicit fuel parameter that strictly exceeds the depth the
source recursion can reach on the given registry (`dfsFuel`), keeping every
definition structurally recursive and hence evaluable by `decide`.
-/

/-- `CellValue` from the source: `std::variant<int, CellState>` with
`CellState ∈ {Empty, Error}`, flattened into one inductive. -/
inductive CellValue where
  | int : Int → CellValue
  | empty : CellValue
  | error : CellValue
deriving DecidableEq, Repr

/-- The cell store `cells`: a partial map from (column, row) to a value.
`none` models absence from the nested `unordered_map`. -/
def CellGrid : Type := Int × Int → Option CellValue

/-- Write one cell, as `cells[col][row] = v` does. -/
def gridSet (g : CellGrid) (p : Int × Int) (v : CellValue) : CellGrid :=
  fun q => if q = p then some v else g q

/-- The empty grid. -/
def emptyGrid : CellGrid := fun _ => none

/-- Splitting a character list on whitespace, as `iss >> token` does.
`Char.isWhitespace` covers space, tab, CR and LF; the `std::isspace`
characters `\v` and `\f` never occur in the inputs considered. -/
def tokenizeAux : List Char → List Char → List String
  | [], cur => if cur = [] then [] else [String.mk cur.reverse]
  | c :: cs, cur =>
      if c.isWhitespace then
        if cur = [] then tokenizeAux cs []
        else String.mk cur.reverse :: tokenizeAux cs []
      else tokenizeAux cs (c :: cur)

/-- Whitespace tokenization of a cell string. -/
def tokenize (s : String) : List String := tokenizeAux s.data []

/-- `Spreadsheet::contains_letter`. -/
def contains_letter (s : String) : Bool := s.data.any (fun c => c.isAlpha)

/-- `Spreadsheet::is_letter_number_format`: the regex `^[A-Za-z]+[0-9]+$`,
i.e. one or more ASCII letters of either case followed by one or more
digits and nothing else. -/
def is_letter_number_format (s : String) : Bool :=
  let letters := s.data.takeWhile (fun c => c.isAlpha)
  let rest := s.data.dropWhile (fun c => c.isAlpha)
  !letters.isEmpty && !rest.isEmpty && rest.all (fun c => c.isDigit)

/-- Value of a digit list read in base 10. -/
def digitsToNat (cs : List Char) : Nat :=
  cs.foldl (fun acc c => acc * 10 + (c.toNat - 48)) 0

/-- `std::stoi`: skip leading whitespace, read an optional single sign and a
nonempty run of digits, ignore everything after the digits, and fail
(`none`, modelling the thrown exception) when there is no digit or the value
does not fit a 32-bit `int`. -/
def stoi (s : String) : Option Int :=
  let cs := s.data.dropWhile (fun c => c.isWhitespace)
  let signed : Int × List Char :=
    match cs with
    | '+' :: r => (1, r)
    | '-' :: r => (-1, r)
    | _ => (1, cs)
  let ds := signed.2.takeWhile (fun c => c.isDigit)
  if ds.isEmpty then none
  else
    let v : Int := signed.1 * (digitsToNat ds : Int)
    if v < -2147483648 ∨ 2147483647 < v then none else some v

/-- `Spreadsheet::col_to_coord`: `result = result * 26 + (ch - 'A')` over the
letters of a column string (note: no bijective-base-26 offset, so e.g.
`"AA"` maps to the same column as `"A"`). -/
def col_to_coord (cs : List Char) : Int :=
  cs.foldl (fun acc c => acc * 26 + ((c.toNat : Int) - 65)) 0

/-- One column letter: `'A' + n % 26`. -/
def colLetter (n : Nat) : Char := Char.ofNat (65 + n % 26)

/-- The loop of `Spreadsheet::coord_to_col`, with fuel making the recursion
structural; `n + 1` units of fuel strictly exceed the number of iterations
the `n /= 26; --n` loop can perform. -/
def coordToColAux : Nat → Nat → String
  | 0, _ => ""
  | f + 1, n =>
      if n < 26 then String.mk [colLetter n]
      else coordToColAux f (n / 26 - 1) ++ String.mk [colLetter n]

/-- `Spreadsheet::coord_to_col` (negative input leaves the loop unentered). -/
def coord_to_col (n : Int) : String :=
  if n < 0 then "" else coordToColAux (n.toNat + 1) n.toNat

/-- `Spreadsheet::coords_to_address`. -/
def coords_to_address (p : Int × Int) : String :=
  coord_to_col p.1 ++ toString p.2

/-- `Spreadsheet::address_to_coords`: split off the maximal alphabetic
prefix, convert it with `col_to_coord`, and read the row with `stoi`
(digit-prefix semantics). -/
def address_to_coords (a : String) : Int × Int :=
  let letters := a.data.takeWhile (fun c => c.isAlpha)
  let rest := a.data.dropWhile (fun c => c.isAlpha)
  (col_to_coord letters, (digitsToNat (rest.takeWhile (fun c => c.isDigit)) : Int))

/-- The four operator tokens of the evaluator. -/
def isOpTok (t : String) : Bool :=
  t == "+" || t == "-" || t == "*" || t == "/"

/-- The arithmetic performed on the two popped operands, in the source's
order: `op1` is popped first (most recently pushed), `op2` second, and the
result is `op1 ⊕ op2`.  `Int.tdiv` is C++ `int` division (truncation toward
zero). -/
def applyOpTok (t : String) (op1 op2 : Int) : Int :=
  if t == "+" then op1 + op2
  else if t == "-" then op1 - op2
  else if t == "*" then op1 * op2
  else Int.tdiv op1 op2

/-- The token loop of `Spreadsheet::calculate_postfix`.  The stack grows at
the head, so `op1` is the head.  `none` models `error = true; break`. -/
def evalStack : List String → List Int → Option (List Int)
  | [], st => some st
  | t :: ts, st =>
      if isOpTok t then
        match st with
        | op1 :: op2 :: rest =>
            if t == "/" && op2 == 0 then none
            else evalStack ts (applyOpTok t op1 op2 :: rest)
        | _ => none
      else
        match stoi t with
        | some n => evalStack ts (n :: st)
        | none => none

/-- The value stored by `Spreadsheet::calculate_postfix`: the single
remaining stack entry, or `Error` when the loop failed or the final stack
size differs from one. -/
def calcTokens (ts : List String) : CellValue :=
  match evalStack ts [] with
  | some [v] => CellValue.int v
  | _ => CellValue.error

/-- `Spreadsheet::calculate_postfix` on a raw expression string (the grid
write is performed by the callers below). -/
def calculate_postfix (e : String) : CellValue := calcTokens (tokenize e)

/-- The `dependencies` map: each entry is (address, formula, dependents),
i.e. the key together with its `pair<string, vector<string>>` value.  The
list keeps one entry per key, in insertion order; iteration order over keys
is passed separately wherever the source iterates the `unordered_map`. -/
structure Registry where
  items : List (String × String × List String)

/-- Lookup of a key's (formula, dependents) pair. -/
def Registry.find? (r : Registry) (a : String) : Option (String × List String) :=
  (r.items.find? (fun it => it.1 == a)).map (fun it => it.2)

/-- `dependencies[a].first` for an existing key (`""` is both the value of a
default-constructed entry and the result for an absent key; the source only
reads formulas of existing keys). -/
def Registry.formulaOf (r : Registry) (a : String) : String :=
  ((r.find? a).map (fun p => p.1)).getD ""

/-- `dependencies[a].second`, the dependents recorded for `a`. -/
def Registry.depsOf (r : Registry) (a : String) : List String :=
  ((r.find? a).map (fun p => p.2)).getD []

/-- The key set, in insertion order. -/
def Registry.keys (r : Registry) : List String := r.items.map (fun it => it.1)

/-- Membership test, as `dependencies.find(a) != dependencies.end()`. -/
def Registry.hasKey (r : Registry) (a : String) : Bool :=
  r.items.any (fun it => it.1 == a)

/-- Store a formula under a key: update `.first` when the key exists,
otherwise insert `{f, {}}` (the two branches of `parse_tokens`). -/
def Registry.setFormula (r : Registry) (a f : String) : Registry :=
  if r.hasKey a then
    ⟨r.items.map (fun it => if it.1 == a then (it.1, f, it.2.2) else it)⟩
  else ⟨r.items ++ [(a, f, [])]⟩

/-- `dependencies[t].second.push_back(dep)`, default-constructing the entry
when `t` is absent. -/
def Registry.pushDep (r : Registry) (t dep : String) : Registry :=
  if r.hasKey t then
    ⟨r.items.map (fun it =>
      if it.1 == t then (it.1, it.2.1, it.2.2 ++ [dep]) else it)⟩
  else ⟨r.items ++ [(t, "", [dep])]⟩

/-- The engine state: the cell grid plus the dependency registry. -/
structure SState where
  cells : CellGrid
  reg : Registry

/-- `Spreadsheet::parse_tokens`: a cell containing a letter is registered as
a formula and contributes one dependent edge per address-shaped token; any
other cell is evaluated immediately. -/
def parse_tokens (st : SState) (coords : Int × Int) (contents : String) : SState :=
  if contains_letter contents then
    let addr := coords_to_address coords
    let reg1 := st.reg.setFormula addr contents
    let reg2 := (tokenize contents).foldl
      (fun r tok => if is_letter_number_format tok then r.pushDep tok addr else r)
      reg1
    { st with reg := reg2 }
  else
    { st with cells := gridSet st.cells coords ( calculate_postfix contents) }

/-- One input row handed to `parse_tokens` cell by cell (the comma-splitting
of `parse_input` is the excluded row loader; rows arrive pre-split). -/
def loadRow (st : SState) (rowIdx : Nat) (cellsRow : List String) : SState :=
  cellsRow.enum.foldl
    (fun st p => parse_tokens st ((p.1 : Int), (rowIdx : Int)) p.2) st

/-- The load phase of `parse_input` over all rows. -/
def loadRows (rows : List (List String)) : SState :=
  rows.enum.foldl (fun st p => loadRow st p.1 p.2) ⟨emptyGrid, ⟨[]⟩⟩

/-- The token loop of `Spreadsheet::resolve_references`: accumulate
`acc + " " + token` (with address tokens replaced by the referenced cell's
integer), and on the first address whose cell is absent or non-integer
discard the accumulator and answer the sentinel `"#ERR"`. -/
def rrLoop (g : CellGrid) : List String → String → String
  | [], acc => acc
  | t :: ts, acc =>
      if is_letter_number_format t then
        match g (address_to_coords t) with
        | some (CellValue.int n) => rrLoop g ts (acc ++ " " ++ toString n)
        | _ => "#ERR"
      else rrLoop g ts (acc ++ " " ++ t)

/-- `Spreadsheet::resolve_references`, as a function of the grid and the
formula text (the registry write-back happens in `resolveStep`). -/
def resolve_references (g : CellGrid) (formula : String) : String :=
  rrLoop g (tokenize formula) ""

/-- The traversal state of `topological_sort_dependencies`: the `marked`
and `recStack` sets and the result vector `res` (grown by prepending). -/
structure DfsState where
  marked : List String
  recStack : List String
  res : List String

/-- One step of the recursive `topological_dfs_helper`, written as a single
structurally recursive function: `dfsRun fuel x ws s hc` processes the
remaining dependents `ws` of the active node `x` with accumulated cycle flag
`hc`.  Finding `w` on `recStack` prepends `x` and reports a cycle without
erasing `x` (exactly as the early `return true` does); an unvisited `w` is
visited in full before the loop continues.  Fuel only decreases along the
recursion and `dfsFuel` below always exceeds what a run can consume. -/
def dfsRun (reg : Registry) : Nat → String → List String → DfsState → Bool →
    DfsState × Bool
  | 0, _, _, s, hc => (s, hc)
  | f + 1, x, ws, s, hc =>
      match ws with
      | [] => (⟨s.marked, s.recStack.erase x, x :: s.res⟩, hc)
      | w :: ws' =>
          if w ∈ s.recStack then (⟨s.marked, s.recStack, x :: s.res⟩, true)
          else if w ∈ s.marked then dfsRun reg f x ws' s hc
          else
            let r := dfsRun reg f w (reg.depsOf w)
              ⟨w :: s.marked, w :: s.recStack, s.res⟩ false
            dfsRun reg f x ws' r.1 (hc || r.2)

/-- `topological_dfs_helper reg fuel x s`: mark `x`, push it on `recStack`,
and run the dependent loop. -/
def topological_dfs_helper (reg : Registry) (fuel : Nat) (x : String)
    (s : DfsState) : DfsState × Bool :=
  dfsRun reg fuel x (reg.depsOf x) ⟨x :: s.marked, x :: s.recStack, s.res⟩ false

/-- All dependents appearing anywhere in the registry. -/
def Registry.allDeps (r : Registry) : Finset String :=
  (r.items.flatMap (fun it => it.2.2)).toFinset

/-- The length of the longest dependent list. -/
def Registry.maxDeps (r : Registry) : Nat :=
  (r.items.map (fun it => it.2.2.length)).foldr max 0

/-- Fuel that always suffices for `dfsRun` on `reg` (proved where needed):
with `K := maxDeps + 1`, every recursive call strictly decreases
`K * (number of unmarked potential dependents) + length of the pending
list`, which starts below `K * (allDeps.card + 1)`. -/
def dfsFuel (reg : Registry) : Nat :=
  (reg.maxDeps + 1) * (reg.allDeps.card + 1)

/-- The cycle branch of `topological_sort_dependencies`: force every
address in `res` to `Error`. -/
def markErrors (res : List String) (g : CellGrid) : CellGrid :=
  res.foldl (fun g a => gridSet g (address_to_coords a) CellValue.error) g

/-- The key loop of `topological_sort_dependencies`, iterating the registry
keys in the given (unspecified) order. -/
def topoOuter (reg : Registry) : List String → DfsState → CellGrid →
    DfsState × CellGrid
  | [], s, g => (s, g)
  | k :: ks, s, g =>
      if k ∈ s.marked then topoOuter reg ks s g
      else
        let r := topological_dfs_helper reg (dfsFuel reg) k s
        topoOuter reg ks r.1 (if r.2 then markErrors r.1.res g else g)

/-- The initial traversal state. -/
def dfsInit : DfsState := ⟨[], [], []⟩

/-- The visitation order produced by `topological_sort_dependencies`. -/
def topoRes (reg : Registry) (order : List String) (g : CellGrid) :
    List String :=
  (topoOuter reg order dfsInit g).1.res

/-- One iteration of the loop in `resolve_dependencies`: substitute
references into the stored formula, write the result back, and (when the
resolved formula is nonempty) evaluate it into the grid. -/
def resolveStep (st : SState) (addr : String) : SState :=
  let f := resolve_references st.cells (st.reg.formulaOf addr)
  let reg1 := st.reg.setFormula addr f
  if f = "" then ⟨st.cells, reg1⟩
  else ⟨gridSet st.cells (address_to_coords addr) ( calculate_postfix f), reg1⟩

/-- `Spreadsheet::resolve_dependencies`: run the topological sort (which
also writes the cycle `Error`s) and then resolve every address in the
returned order. -/
def resolve_dependencies (st : SState) (order : List String) : SState :=
  let t := topoOuter st.reg order dfsInit st.cells
  t.1.res.foldl resolveStep ⟨t.2, st.reg⟩

/-- The whole pipeline on pre-split rows, with `order` the iteration order
over the registry's keys, returning the final grid. -/
def runSpreadsheet (rows : List (List String)) (order : List String) :
    CellGrid :=
  (resolve_dependencies (loadRows rows) order).cells

/-- The address pattern exactly as the specification words it: one or more
UPPERCASE letters followed by one or more digits.  Stated for comparison
with the source's `is_letter_number_format`, whose regex also accepts
lowercase letters. -/
def isUpperAddrTok (s : String) : Bool :=
  let letters := s.data.takeWhile (fun c => c.isUpper)
  let rest := s.data.dropWhile (fun c => c.isUpper)
  !letters.isEmpty && !rest.isEmpty && rest.all (fun c => c.isDigit)

/-- A syntactically valid integer literal as the specification words it: an
optional sign followed by digits and nothing else.  Stated for comparison
with the source's `std::stoi`, which also accepts arbitrary text after the
digits. -/
def isValidIntegerTok (s : String) : Bool :=
  let body := match s.data with
    | '+' :: r => r
    | '-' :: r => r
    | r => r
  !body.isEmpty && body.all (fun c => c.isDigit)

/-- The integer stored for an address token, when its cell exists and holds
an integer. -/
def lookupInt (g : CellGrid) (t : String) : Option Int :=
  match g (address_to_coords t) with
  | some (CellValue.int n) => some n
  | _ => none

/-- Declarative all-or-nothing reference substitution, written from the
specification's description of `ReferenceSubstitutor` (with the address
pattern corrected to the source's any-case one): every address token is
replaced by its cell's integer, every other token is copied through, each
token is preceded by a single space, and any failing address makes the
whole result `none`.  `resolve_references` is proved below to equal this
with `none` defaulted to the sentinel. -/
def substSpec (g : CellGrid) : List String → Option String
  | [] => some ""
  | t :: ts =>
      if is_letter_number_format t then
        match lookupInt g t with
        | some n => (substSpec g ts).map (fun r => " " ++ toString n ++ r)
        | none => none
      else (substSpec g ts).map (fun r => " " ++ t ++ r)

/-- The 27-cell input row used to exhibit address-codec aliasing: column 26
has canonical address `"AA0"`, but `address_to_coords "AA0"` is column 0. -/
def aliasRows : List (List String) :=
  [["B0 1 +", "5", "", "", "", "", "", "", "", "", "", "", "", "",
    "", "", "", "", "", "", "", "", "", "", "", "", "AA0 1 +"]]

/-- The dependency edge recorded by `parse_tokens`: `Edge reg a b` holds
when `b` is listed among `a`'s dependents, i.e. `b`'s formula references
`a`, so `a` must be resolved before `b`. -/
def Edge (reg : Registry) (a b : String) : Prop := b ∈ reg.depsOf a

instance (reg : Registry) (a b : String) : Decidable (Edge reg a b) :=
  inferInstanceAs (Decidable (b ∈ reg.depsOf a))

/-- `u` occurs strictly before some occurrence of `v` in `l`. -/
def before (l : List String) (u v : String) : Prop :=
  ∃ l1 l2, l = l1 ++ u :: l2 ∧ v ∈ l2

/-- The invariant maintained by the depth-first traversal in the acyclic
case: `recStack` is marked; `res` holds marked, finished nodes without
duplicates; and every finished node is in `res` with all its dependents
finished and placed after it. -/
structure DfsInv (reg : Registry) (s : DfsState) : Prop where
  recSub : ∀ r ∈ s.recStack, r ∈ s.marked
  resMarked : ∀ y ∈ s.res, y ∈ s.marked ∧ y ∉ s.recStack
  resNodup : s.res.Nodup
  finished : ∀ u, u ∈ s.marked → u ∉ s.recStack →
    u ∈ s.res ∧ ∀ v, Edge reg u v →
      v ∈ s.marked ∧ v ∉ s.recStack ∧ before s.res u v

/-- A grid that never stores the `Empty` variant. -/
def GoodGrid (g : CellGrid) : Prop :=
  ∀ p v, g p = some v → v ≠ CellValue.empty

/-- Evaluating a token list split around a marker token: the evaluator
processes the prefix first and continues from its stack. -/
theorem evalStack_append (l1 l2 : List String) (st : List Int) :
    evalStack (l1 ++ l2) st =
      (evalStack l1 st).bind (fun st2 => evalStack l2 st2) := by
  induction l1 generalizing st with
  | nil => simp [evalStack]
  | cons t ts ih =>
      simp only [List.cons_append, evalStack]
      by_cases hop : isOpTok t = true
      · simp only [hop, if_true]
        match st with
        | [] => simp
        | [a] => simp
        | a :: b :: rest =>
            by_cases hz : (t == "/" && b == 0) = true
            · simp [hz]
            · simp only [Bool.not_eq_true] at hz
              simp [hz, ih]
      · simp only [Bool.not_eq_true] at hop
        simp only [hop, Bool.false_eq_true, if_false]
        cases hs : stoi t <;> simp [hs, ih]

/-- The accumulator form of the substitution loop equals the declarative
all-or-nothing description: the accumulator is kept only when every address
token resolves, and is discarded for the sentinel otherwise. -/
theorem rrLoop_spec (g : CellGrid) (ts : List String) (acc : String) :
    rrLoop g ts acc =
      match substSpec g ts with
      | some r => acc ++ r
      | none => "#ERR" := by
  induction ts generalizing acc with
  | nil => simp [rrLoop, substSpec, String.append_empty]
  | cons t ts ih =>
      simp only [rrLoop, substSpec]
      by_cases hp : is_letter_number_format t = true
      · simp only [hp, if_true]
        cases hv : g (address_to_coords t) with
        | none => simp [lookupInt, hv]
        | some v =>
            cases v with
            | int n =>
                simp only [lookupInt, hv]
                rw [ih]
                cases hs : substSpec g ts <;> simp [String.append_assoc]
            | empty => simp [lookupInt, hv]
            | error => simp [lookupInt, hv]
      · simp only [Bool.not_eq_true] at hp
        simp only [hp, Bool.false_eq_true, if_false]
        rw [ih]
        cases hs : substSpec g ts <;> simp [String.append_assoc]

/-- Claim C1 (code_bug exhibit): the evaluator applies each operator to the
popped operands in pop order, so `5 3 -` evaluates to `3 - 5 = -2` and
`10 2 /` to `2 / 10 = 0`, while the mathematically correct results of these
postfix expressions under standard postfix semantics are `2` and `5`. -/
theorem C1_operand_order_swapped :
    calculate_postfix "5 3 -" = CellValue.int (-2)
    ∧ calculate_postfix "10 2 /" = CellValue.int 0 := by
  exact ⟨by decide, by decide⟩

/-- Claim C2 (code_bug exhibit): `5 0 /` does not yield `Error` but the
integer `0` (the code computes `0 / 5` and checks the second-popped operand,
i.e. the FIRST expression operand, against zero), while `0 5 /` — whose
mathematical divisor is nonzero — is the input that fails. -/
theorem C2_division_zero_check_on_wrong_operand :
    calculate_postfix "5 0 /" = CellValue.int 0
    ∧ calculate_postfix "0 5 /" = CellValue.error := by
  exact ⟨by decide, by decide⟩

/-- Claim C3 counterexample: in the grid with A0 = `5` (a plain cell),
A1 = `A0 1 +`, and the two-cell cycle A2 = `A3 1 +`, A3 = `A2 1 +`, the
final value of A0 depends on the iteration order over the registry's keys:
when the acyclic component is traversed before the cycle is detected, A0
(which is implicated in no cycle, and whose normal value is `5`) ends up
`Error`, because cycle detection marks every cell in the shared visitation
list accumulated so far.  This refutes the claim's "for every iteration
order" locality statement. -/
theorem C3_counterexample_shared_visitation_list :
    runSpreadsheet [["5"], ["A0 1 +"], ["A3 1 +"], ["A2 1 +"]]
        ["A0", "A2", "A3", "A1"] (0, 0) = some CellValue.error
    ∧ runSpreadsheet [["5"], ["A0 1 +"], ["A3 1 +"], ["A2 1 +"]]
        ["A2", "A3", "A0", "A1"] (0, 0) = some (CellValue.int 5) := by
  exact ⟨by decide, by decide⟩

/-- Claim C3 (amended): with the same grid, when the registry iteration
reaches the cyclic component before any cycle-free cell is traversed, cycle
failure is local: the plain cell A0 keeps its value `5`, its dependent A1
resolves to `6`, and exactly the cycle cells A2 and A3 end up `Error`. -/
theorem C3_amended_locality_for_cycle_first_order :
    runSpreadsheet [["5"], ["A0 1 +"], ["A3 1 +"], ["A2 1 +"]]
        ["A2", "A3", "A0", "A1"] (0, 0) = some (CellValue.int 5)
    ∧ runSpreadsheet [["5"], ["A0 1 +"], ["A3 1 +"], ["A2 1 +"]]
        ["A2", "A3", "A0", "A1"] (0, 1) = some (CellValue.int 6)
    ∧ runSpreadsheet [["5"], ["A0 1 +"], ["A3 1 +"], ["A2 1 +"]]
        ["A2", "A3", "A0", "A1"] (0, 2) = some CellValue.error
    ∧ runSpreadsheet [["5"], ["A0 1 +"], ["A3 1 +"], ["A2 1 +"]]
        ["A2", "A3", "A0", "A1"] (0, 3) = some CellValue.error := by
  exact ⟨by decide, by decide, by decide, by decide⟩

/-- Claim C5 counterexample: the cell loaded at column 26 of row 0 has the
canonical address `AA0` and the formula `AA0 1 +`, hence lies on a reference
cycle (a self-loop).  But `address_to_coords "AA0"` is `(0, 0)`, not
`(26, 0)` (the codec is not bijective), so the cycle `Error` is written to
`(0, 0)` and later overwritten with the integer `7` when `A0`'s formula is
resolved, while `(26, 0)` — the coordinate the cell was loaded at — ends
absent from the grid (i.e. `Empty`).  No coordinate associated with this
cycle cell holds `Error` after the run, refuting the claim. -/
theorem C5_counterexample_codec_aliasing :
    "AA0" ∈ (loadRows aliasRows).reg.depsOf "AA0"
    ∧ (loadRows aliasRows).reg.formulaOf "AA0" = "AA0 1 +"
    ∧ coords_to_address (26, 0) = "AA0"
    ∧ address_to_coords "AA0" = (0, 0)
    ∧ runSpreadsheet aliasRows ["AA0", "B0", "A0"] (26, 0) = none
    ∧ runSpreadsheet aliasRows ["AA0", "B0", "A0"] (0, 0)
        = some (CellValue.int 7) := by
  exact ⟨by decide, by decide, by decide, by decide, by decide, by decide⟩

/-- Claim C5 (amended): in Scenario C — A0 = `A1 1 +`, A1 = `A0 1 +` — both
cells of the cycle resolve to `Error` for every iteration order over the
registry's two keys. -/
theorem C5_amended_two_cell_cycle_errors :
    (runSpreadsheet [["A1 1 +"], ["A0 1 +"]] ["A0", "A1"] (0, 0)
        = some CellValue.error
      ∧ runSpreadsheet [["A1 1 +"], ["A0 1 +"]] ["A0", "A1"] (0, 1)
        = some CellValue.error)
    ∧ (runSpreadsheet [["A1 1 +"], ["A0 1 +"]] ["A1", "A0"] (0, 0)
        = some CellValue.error
      ∧ runSpreadsheet [["A1 1 +"], ["A0 1 +"]] ["A1", "A0"] (0, 1)
        = some CellValue.error) := by
  exact ⟨⟨by decide, by decide⟩, ⟨by decide, by decide⟩⟩

/-- Claim C6 counterexample: the token `a1` does not match the claim's
address pattern (uppercase letters followed by digits), so by the claim it
must be copied through unchanged — and with no looked-up address at all the
output cannot be the error sentinel.  The source's pattern also accepts
lowercase letters, so the code treats `a1` as an address, looks it up,
fails, and answers the sentinel. -/
theorem C6_counterexample_lowercase_token :
    isUpperAddrTok "a1" = false
    ∧ is_letter_number_format "a1" = true
    ∧ resolve_references emptyGrid "a1" = "#ERR" := by
  exact ⟨by decide, by decide, by decide⟩

/-- Claim C6 (amended): reference substitution is all-or-nothing and only
rewrites tokens matching the source's address pattern (one or more letters
of either case followed by one or more digits): the output equals the
declarative description `substSpec` — every address token replaced by the
decimal value of its cell, every other token copied through, single spaces
separating tokens — with any absent or non-integer address collapsing the
whole result to the sentinel and discarding all partial output. -/
theorem C6_amended_substitution_characterization (g : CellGrid) (f : String) :
    resolve_references g f = (substSpec g (tokenize f)).getD "#ERR" := by
  unfold resolve_references
  rw [rrLoop_spec]
  cases hs : substSpec g (tokenize f) <;> simp [String.empty_append]

/-- Claim C7: whenever an operator token is reached with fewer than two
operands on the stack the whole evaluation yields `Error`; whenever the
final stack size differs from one the evaluation yields `Error`; and in
particular `7 +` evaluates to `Error`.  No partial numeric value is ever
produced in these situations. -/
theorem C7_underflow_and_final_stack_errors :
    (∀ pre t rest st, isOpTok t = true → evalStack pre [] = some st →
        st.length < 2 → calcTokens (pre ++ t :: rest) = CellValue.error)
    ∧ (∀ l st, evalStack l [] = some st → st.length ≠ 1 →
        calcTokens l = CellValue.error)
    ∧ calculate_postfix "7 +" = CellValue.error := by
  refine ⟨?_, ?_, by decide⟩
  · intro pre t rest st hop hpre hlen
    unfold calcTokens
    rw [evalStack_append, hpre]
    cases st with
    | nil => simp [evalStack, hop]
    | cons a st2 =>
        cases st2 with
        | nil => simp [evalStack, hop]
        | cons b st3 => simp only [List.length_cons] at hlen; omega
  · intro l st h hne
    unfold calcTokens
    rw [h]
    cases st with
    | nil => rfl
    | cons a st2 =>
        cases st2 with
        | nil => simp at hne
        | cons b st3 => rfl

/-- Witness for claim C7 at the concrete input `7 +`: the single literal
`7` leaves a one-element stack, so the operator underflows and the result
is `Error`. -/
theorem C7_underflow_witness :
    calcTokens (["7"] ++ "+" :: []) = CellValue.error :=
  C7_underflow_and_final_stack_errors.1 ["7"] "+" [] [7]
    (by decide) (by decide) (by decide)

/-- Claim C8 counterexample: `1.5` is neither an operator nor a
syntactically valid integer, yet the evaluation of `1.5` does not fail:
`std::stoi` parses the valid integer prefix `1` and ignores the rest, so
the cell evaluates to the integer `1`. -/
theorem C8_counterexample_stoi_accepts_prefix :
    isOpTok "1.5" = false
    ∧ isValidIntegerTok "1.5" = false
    ∧ calculate_postfix "1.5" = CellValue.int 1 := by
  exact ⟨by decide, by decide, by decide⟩

/-- Claim C8 (amended): any token that is neither one of `+ - * /` nor
parseable by `std::stoi` (an optional sign followed by at least one digit,
with the digit prefix in `int` range; trailing characters are ignored)
makes the whole evaluation yield `Error` as soon as it is reached. -/
theorem C8_amended_unparseable_token_fails :
    ∀ pre t rest st, isOpTok t = false → stoi t = none →
      evalStack pre [] = some st →
      calcTokens (pre ++ t :: rest) = CellValue.error := by
  intro pre t rest st hop hstoi hpre
  unfold calcTokens
  rw [evalStack_append, hpre]
  simp [evalStack, hop, hstoi]

/-- Witness for the amended claim C8 at the concrete token `.`: it is not
an operator and has no digit, so the evaluation fails. -/
theorem C8_amended_witness :
    calcTokens ([] ++ "." :: []) = CellValue.error :=
  C8_amended_unparseable_token_fails [] "." [] []
    (by decide) (by decide) (by decide)

/-- `before` is stable under prepending. -/
theorem before_cons {l : List String} {u v : String} (a : String)
    (h : before l u v) : before (a :: l) u v := by
  obtain ⟨l1, l2, hl, hv⟩ := h
  exact ⟨a :: l1, l2, by rw [hl]; rfl, hv⟩

/-- A freshly prepended element is before everything already present. -/
theorem before_head {l : List String} {v : String} (u : String)
    (h : v ∈ l) : before (u :: l) u v :=
  ⟨[], l, rfl, h⟩

/-- Every dependent recorded anywhere is in `allDeps`. -/
theorem mem_allDeps_of_edge {reg : Registry} {x w : String}
    (h : Edge reg x w) : w ∈ reg.allDeps := by
  unfold Edge Registry.depsOf Registry.find? at h
  unfold Registry.allDeps
  cases hf : reg.items.find? (fun it => it.1 == x) with
  | none => rw [hf] at h; simp at h
  | some it =>
      rw [hf] at h
      simp only [Option.map_some', Option.getD_some] at h
      have hmem := List.mem_of_find?_eq_some hf
      simp only [List.mem_toFinset, List.mem_flatMap]
      exact ⟨it, hmem, h⟩

/-- A member's image is at most the fold of `max` over the mapped list. -/
theorem le_foldr_max {α : Type _} (f : α → Nat) :
    ∀ (l : List α) (a : α), a ∈ l → f a ≤ (l.map f).foldr max 0 := by
  intro l
  induction l with
  | nil => intro a ha; cases ha
  | cons b l ih =>
      intro a ha
      rcases List.mem_cons.mp ha with hab | hal
      · rw [hab]; exact le_max_left _ _
      · exact le_trans (ih a hal) (le_max_right _ _)

/-- No dependent list is longer than `maxDeps`. -/
theorem depsOf_length_le (reg : Registry) (x : String) :
    (reg.depsOf x).length ≤ reg.maxDeps := by
  unfold Registry.depsOf Registry.find? Registry.maxDeps
  cases hf : reg.items.find? (fun it => it.1 == x) with
  | none => simp
  | some it =>
      simp only [Option.map_some', Option.getD_some]
      exact le_foldr_max (fun it => it.2.2.length) reg.items it
        (List.mem_of_find?_eq_some hf)

/-- A node with an outgoing edge is one of the registry's keys. -/
theorem mem_keys_of_edge {reg : Registry} {x w : String}
    (h : Edge reg x w) : x ∈ reg.keys := by
  unfold Edge Registry.depsOf Registry.find? at h
  cases hf : reg.items.find? (fun it => it.1 == x) with
  | none => rw [hf] at h; simp at h
  | some it =>
      have hmem := List.mem_of_find?_eq_some hf
      have hp : it.1 = x := by simpa using List.find?_some hf
      unfold Registry.keys
      exact hp ▸ List.mem_map_of_mem (fun it => it.1) hmem

/-- The specification of `dfsRun` on an acyclic dependency graph: starting
from an invariant state with `x` active on top of `recStack` and the pending
dependents `ws` being a suffix of `x`'s dependent list whose prefix is
already finished, a sufficiently fuelled run reports no cycle, pops exactly
`x` from `recStack`, only grows `marked`, prepends `x` and some previously
unmarked nodes to `res`, and re-establishes the invariant — so in
particular `x` is finished with every dependent after it in `res`. -/
theorem dfsRun_acyclic_spec (reg : Registry)
    (hacyc : ∀ a, ¬ Relation.TransGen (Edge reg) a a) :
    ∀ (fuel : Nat) (x : String) (ws : List String) (s : DfsState)
      (rec0 : List String),
      DfsInv reg s →
      x ∈ s.marked →
      s.recStack = x :: rec0 →
      x ∉ rec0 →
      (∀ r ∈ s.recStack, Relation.ReflTransGen (Edge reg) r x) →
      (∀ w ∈ ws, Edge reg x w) →
      (∃ pre, reg.depsOf x = pre ++ ws ∧
          ∀ v ∈ pre, v ∈ s.marked ∧ v ∉ s.recStack) →
      (reg.maxDeps + 1) *
          ((reg.allDeps.filter (fun y => y ∉ s.marked)).card) + ws.length
        < fuel →
      ∃ s2, dfsRun reg fuel x ws s false = (s2, false)
        ∧ s2.recStack = rec0
        ∧ (∀ y, y ∈ s.marked → y ∈ s2.marked)
        ∧ (∃ mid, s2.res = x :: (mid ++ s.res)
            ∧ ∀ y ∈ mid, y ∉ s.marked)
        ∧ DfsInv reg s2 := by
  intro fuel
  induction fuel with
  | zero =>
      intro x ws s rec0 _ _ _ _ _ _ _ hfuel
      omega
  | succ f ih =>
      intro x ws s rec0 hInv hxm hrec hxr hpath hdeps hproc hfuel
      have hxnr : x ∉ s.recStack.tail := by rw [hrec]; exact hxr
      cases ws with
      | nil =>
          have herase : s.recStack.erase x = rec0 := by
            rw [hrec]; exact List.erase_cons_head x rec0
          have hxres : x ∉ s.res := by
            intro hx
            have h2 := (hInv.resMarked x hx).2
            rw [hrec] at h2
            exact h2 (List.mem_cons_self x rec0)
          obtain ⟨pre, hpre, hprev⟩ := hproc
          rw [List.append_nil] at hpre
          refine ⟨⟨s.marked, s.recStack.erase x, x :: s.res⟩, rfl, herase,
            fun y hy => hy, ⟨[], rfl, fun y hy => absurd hy (List.not_mem_nil y)⟩,
            ?_⟩
          constructor
          · intro r hr
            have : r ∈ s.recStack := List.mem_of_mem_erase hr
            exact hInv.recSub r this
          · intro y hy
            rcases List.mem_cons.mp hy with rfl | hy2
            · exact ⟨hxm, by rw [herase]; exact hxr⟩
            · obtain ⟨h1, h2⟩ := hInv.resMarked y hy2
              exact ⟨h1, fun hc => h2 (List.mem_of_mem_erase hc)⟩
          · exact List.nodup_cons.mpr ⟨hxres, hInv.resNodup⟩
          · intro u hu hur
            by_cases hux : u = x
            · subst hux
              refine ⟨List.mem_cons_self u (s.res), ?_⟩
              intro v hv
              have hv' : v ∈ pre := by
                have hv2 : v ∈ reg.depsOf u := hv
                rwa [hpre] at hv2
              obtain ⟨hv1, hv2⟩ := hprev v hv'
              have hvfin := hInv.finished v hv1 hv2
              refine ⟨hv1, fun hc => hv2 (List.mem_of_mem_erase hc),
                before_head u hvfin.1⟩
            · have hus : u ∉ s.recStack := by
                intro hc
                rw [hrec] at hc
                rcases List.mem_cons.mp hc with h | h
                · exact hux h
                · exact hur (by rw [herase]; exact h)
              obtain ⟨h1, h2⟩ := hInv.finished u hu hus
              refine ⟨List.mem_cons_of_mem x h1, ?_⟩
              intro v hv
              obtain ⟨hv1, hv2, hv3⟩ := h2 v hv
              exact ⟨hv1, fun hc => hv2 (List.mem_of_mem_erase hc),
                before_cons x hv3⟩
      | cons w ws' =>
          have hEw : Edge reg x w := hdeps w (List.mem_cons_self w ws')
          by_cases hwrec : w ∈ s.recStack
          · exfalso
            exact hacyc w (Relation.TransGen.tail' (hpath w hwrec) hEw)
          · by_cases hwm : w ∈ s.marked
            · -- the dependent is already marked and finished: skip it
              have hred : dfsRun reg (f + 1) x (w :: ws') s false
                  = dfsRun reg f x ws' s false := by
                simp [dfsRun, hwrec, hwm]
              obtain ⟨pre, hpre, hprev⟩ := hproc
              have hfuel2 : (reg.maxDeps + 1) *
                  ((reg.allDeps.filter (fun y => y ∉ s.marked)).card)
                  + ws'.length < f := by
                simp only [List.length_cons] at hfuel
                omega
              have hproc2 : ∃ p2, reg.depsOf x = p2 ++ ws' ∧
                  ∀ v ∈ p2, v ∈ s.marked ∧ v ∉ s.recStack := by
                refine ⟨pre ++ [w], by rw [hpre]; simp, ?_⟩
                intro v hv
                rcases List.mem_append.mp hv with h | h
                · exact hprev v h
                · rw [List.mem_singleton.mp h]
                  exact ⟨hwm, hwrec⟩
              obtain ⟨s2, he, h1, h2, h3, h4⟩ := ih x ws' s rec0 hInv hxm hrec
                hxr hpath (fun v hv => hdeps v (List.mem_cons_of_mem w hv))
                hproc2 hfuel2
              exact ⟨s2, by rw [hred]; exact he, h1, h2, h3, h4⟩
            · -- the dependent is unvisited: recurse into it first
              obtain ⟨pre, hpre, hprev⟩ := hproc
              have hwD : w ∈ reg.allDeps := mem_allDeps_of_edge hEw
              have hwf : w ∈ reg.allDeps.filter (fun y => y ∉ s.marked) :=
                Finset.mem_filter.mpr ⟨hwD, hwm⟩
              -- the child state
              have hchildInv : DfsInv reg ⟨w :: s.marked, w :: s.recStack, s.res⟩ := by
                constructor
                · intro r hr
                  rcases List.mem_cons.mp hr with rfl | hr2
                  · exact List.mem_cons_self r s.marked
                  · exact List.mem_cons_of_mem w (hInv.recSub r hr2)
                · intro y hy
                  obtain ⟨h1, h2⟩ := hInv.resMarked y hy
                  refine ⟨List.mem_cons_of_mem w h1, ?_⟩
                  intro hc
                  rcases List.mem_cons.mp hc with rfl | hc2
                  · exact hwm h1
                  · exact h2 hc2
                · exact hInv.resNodup
                · intro u hu hur
                  have huw : u ≠ w := by
                    intro h
                    exact hur (h ▸ List.mem_cons_self w s.recStack)
                  have hu2 : u ∈ s.marked := by
                    rcases List.mem_cons.mp hu with h | h
                    · exact absurd h huw
                    · exact h
                  have hur2 : u ∉ s.recStack :=
                    fun hc => hur (List.mem_cons_of_mem w hc)
                  obtain ⟨h1, h2⟩ := hInv.finished u hu2 hur2
                  refine ⟨h1, ?_⟩
                  intro v hv
                  obtain ⟨hv1, hv2, hv3⟩ := h2 v hv
                  have hvw : v ≠ w := fun h => hwm (h ▸ hv1)
                  refine ⟨List.mem_cons_of_mem w hv1, ?_, hv3⟩
                  intro hc
                  rcases List.mem_cons.mp hc with h | h
                  · exact hvw h
                  · exact hv2 h
              have hwrec2 : w ∉ s.recStack := hwrec
              have hchildFuel : (reg.maxDeps + 1) *
                  ((reg.allDeps.filter
                    (fun y => y ∉ (⟨w :: s.marked, w :: s.recStack, s.res⟩ :
                      DfsState).marked)).card) + (reg.depsOf w).length < f := by
                show (reg.maxDeps + 1) *
                  ((reg.allDeps.filter (fun y => y ∉ w :: s.marked)).card)
                  + (reg.depsOf w).length < f
                have hwnot : w ∉ reg.allDeps.filter
                    (fun y => y ∉ w :: s.marked) := by
                  intro hc
                  exact (Finset.mem_filter.mp hc).2 (List.mem_cons_self w s.marked)
                have hins : insert w (reg.allDeps.filter
                    (fun y => y ∉ w :: s.marked))
                    ⊆ reg.allDeps.filter (fun y => y ∉ s.marked) := by
                  intro y hy
                  rcases Finset.mem_insert.mp hy with rfl | hy2
                  · exact hwf
                  · obtain ⟨hy3, hy4⟩ := Finset.mem_filter.mp hy2
                    exact Finset.mem_filter.mpr
                      ⟨hy3, fun hc => hy4 (List.mem_cons_of_mem w hc)⟩
                have hcard : (reg.allDeps.filter
                    (fun y => y ∉ w :: s.marked)).card + 1
                    ≤ (reg.allDeps.filter (fun y => y ∉ s.marked)).card := by
                  rw [← Finset.card_insert_of_not_mem hwnot]
                  exact Finset.card_le_card hins
                have hdw := depsOf_length_le reg w
                have hmul := Nat.mul_le_mul_left (reg.maxDeps + 1) hcard
                rw [Nat.mul_succ] at hmul
                simp only [List.length_cons] at hfuel
                omega
              obtain ⟨s1, hceq, hcrec, hcmono, ⟨midw, hcres, hmidw⟩, hcInv⟩ :=
                ih w (reg.depsOf w) ⟨w :: s.marked, w :: s.recStack, s.res⟩
                  s.recStack hchildInv (List.mem_cons_self w s.marked) rfl
                  hwrec2
                  (by
                    intro r hr
                    rcases List.mem_cons.mp hr with rfl | hr2
                    · exact Relation.ReflTransGen.refl
                    · exact Relation.ReflTransGen.tail (hpath r hr2) hEw)
                  (fun v hv => hv)
                  ⟨[], rfl, fun v hv => absurd hv (List.not_mem_nil v)⟩
                  hchildFuel
              -- the continuation over the remaining dependents
              have hcontFuel : (reg.maxDeps + 1) *
                  ((reg.allDeps.filter (fun y => y ∉ s1.marked)).card)
                  + ws'.length < f := by
                have hsub : reg.allDeps.filter (fun y => y ∉ s1.marked)
                    ⊆ reg.allDeps.filter (fun y => y ∉ s.marked) := by
                  intro y hy
                  obtain ⟨h1, h2⟩ := Finset.mem_filter.mp hy
                  exact Finset.mem_filter.mpr
                    ⟨h1, fun hc => h2 (hcmono y (List.mem_cons_of_mem w hc))⟩
                have hcard := Finset.card_le_card hsub
                have hmul := Nat.mul_le_mul_left (reg.maxDeps + 1) hcard
                simp only [List.length_cons] at hfuel
                omega
              have hproc2 : ∃ p2, reg.depsOf x = p2 ++ ws' ∧
                  ∀ v ∈ p2, v ∈ s1.marked ∧ v ∉ s1.recStack := by
                refine ⟨pre ++ [w], by rw [hpre]; simp, ?_⟩
                intro v hv
                rcases List.mem_append.mp hv with h | h
                · obtain ⟨h1, h2⟩ := hprev v h
                  exact ⟨hcmono v (List.mem_cons_of_mem w h1),
                    by rw [hcrec]; exact h2⟩
                · rw [List.mem_singleton.mp h]
                  exact ⟨hcmono w (List.mem_cons_self w s.marked),
                    by rw [hcrec]; exact hwrec2⟩
              obtain ⟨s2, heq2, hrec2, hmono2, ⟨mid2, hres2, hmid2⟩, hInv2⟩ :=
                ih x ws' s1 rec0 hcInv
                  (hcmono x (List.mem_cons_of_mem w hxm))
                  (by rw [hcrec, hrec]) hxr
                  (by intro r hr; rw [hcrec] at hr; exact hpath r hr)
                  (fun v hv => hdeps v (List.mem_cons_of_mem w hv))
                  hproc2 hcontFuel
              have hstep : dfsRun reg (f + 1) x (w :: ws') s false
                  = (s2, false) := by
                simp [dfsRun, hwrec, hwm, hceq, heq2]
              refine ⟨s2, hstep, hrec2, ?_, ?_, hInv2⟩
              · intro y hy
                exact hmono2 y (hcmono y (List.mem_cons_of_mem w hy))
              · refine ⟨mid2 ++ w :: midw, ?_, ?_⟩
                · rw [hres2, hcres]
                  simp [List.append_assoc]
                · intro y hy
                  rcases List.mem_append.mp hy with h | h
                  · intro hc
                    exact hmid2 y h (hcmono y (List.mem_cons_of_mem w hc))
                  · rcases List.mem_cons.mp h with rfl | h2
                    · exact hwm
                    · intro hc
                      exact hmidw y h2 (List.mem_cons_of_mem w hc)

/-- Pushing an unvisited node onto `marked` and `recStack` preserves the
traversal invariant. -/
theorem DfsInv.push {reg : Registry} {s : DfsState} {x : String}
    (hInv : DfsInv reg s) (hxm : x ∉ s.marked) :
    DfsInv reg ⟨x :: s.marked, x :: s.recStack, s.res⟩ := by
  constructor
  · intro r hr
    rcases List.mem_cons.mp hr with rfl | hr2
    · exact List.mem_cons_self r s.marked
    · exact List.mem_cons_of_mem x (hInv.recSub r hr2)
  · intro y hy
    obtain ⟨h1, h2⟩ := hInv.resMarked y hy
    refine ⟨List.mem_cons_of_mem x h1, ?_⟩
    intro hc
    rcases List.mem_cons.mp hc with rfl | hc2
    · exact hxm h1
    · exact h2 hc2
  · exact hInv.resNodup
  · intro u hu hur
    have hux : u ≠ x := by
      intro h
      exact hur (h ▸ List.mem_cons_self x s.recStack)
    have hu2 : u ∈ s.marked := by
      rcases List.mem_cons.mp hu with h | h
      · exact absurd h hux
      · exact h
    have hur2 : u ∉ s.recStack := fun hc => hur (List.mem_cons_of_mem x hc)
    obtain ⟨h1, h2⟩ := hInv.finished u hu2 hur2
    refine ⟨h1, ?_⟩
    intro v hv
    obtain ⟨hv1, hv2, hv3⟩ := h2 v hv
    have hvx : v ≠ x := fun h => hxm (h ▸ hv1)
    refine ⟨List.mem_cons_of_mem x hv1, ?_, hv3⟩
    intro hc
    rcases List.mem_cons.mp hc with h | h
    · exact hvx h
    · exact hv2 h

/-- The specification of `topological_dfs_helper` on an acyclic graph:
started on an unvisited node with every active ancestor reaching it, a
sufficiently fuelled traversal reports no cycle, restores `recStack`, only
grows `marked` (now containing the node), and keeps the invariant. -/
theorem dfs_helper_acyclic_spec (reg : Registry)
    (hacyc : ∀ a, ¬ Relation.TransGen (Edge reg) a a)
    (fuel : Nat) (x : String) (s : DfsState)
    (hInv : DfsInv reg s) (hxm : x ∉ s.marked)
    (hpath : ∀ r ∈ s.recStack, Relation.ReflTransGen (Edge reg) r x)
    (hfuel : (reg.maxDeps + 1) *
        ((reg.allDeps.filter (fun y => y ∉ s.marked)).card + 1) ≤ fuel) :
    ∃ s2, topological_dfs_helper reg fuel x s = (s2, false)
      ∧ s2.recStack = s.recStack
      ∧ (∀ y, y ∈ s.marked → y ∈ s2.marked)
      ∧ x ∈ s2.marked
      ∧ DfsInv reg s2 := by
  have hxrec : x ∉ s.recStack := fun hc => hxm (hInv.recSub x hc)
  have hfuel2 : (reg.maxDeps + 1) *
      ((reg.allDeps.filter
        (fun y => y ∉ (⟨x :: s.marked, x :: s.recStack, s.res⟩ :
          DfsState).marked)).card) + (reg.depsOf x).length < fuel := by
    show (reg.maxDeps + 1) *
      ((reg.allDeps.filter (fun y => y ∉ x :: s.marked)).card)
      + (reg.depsOf x).length < fuel
    have hsub : reg.allDeps.filter (fun y => y ∉ x :: s.marked)
        ⊆ reg.allDeps.filter (fun y => y ∉ s.marked) := by
      intro y hy
      obtain ⟨h1, h2⟩ := Finset.mem_filter.mp hy
      exact Finset.mem_filter.mpr
        ⟨h1, fun hc => h2 (List.mem_cons_of_mem x hc)⟩
    have hcard := Finset.card_le_card hsub
    have hmul := Nat.mul_le_mul_left (reg.maxDeps + 1) hcard
    have hdx := depsOf_length_le reg x
    rw [Nat.mul_succ] at hfuel
    omega
  obtain ⟨s2, heq, hrec2, hmono, ⟨mid, hres, hmid⟩, hInv2⟩ :=
    dfsRun_acyclic_spec reg hacyc fuel x (reg.depsOf x)
      ⟨x :: s.marked, x :: s.recStack, s.res⟩ s.recStack
      (hInv.push hxm) (List.mem_cons_self x s.marked) rfl hxrec
      (by
        intro r hr
        rcases List.mem_cons.mp hr with rfl | hr2
        · exact Relation.ReflTransGen.refl
        · exact hpath r hr2)
      (fun v hv => hv)
      ⟨[], rfl, fun v hv => absurd hv (List.not_mem_nil v)⟩
      hfuel2
  exact ⟨s2, heq, hrec2,
    fun y hy => hmono y (List.mem_cons_of_mem x hy),
    hmono x (List.mem_cons_self x s.marked), hInv2⟩

/-- The key loop of the topological sort on an acyclic graph: the invariant
and the empty `recStack` are preserved, `marked` only grows, and every
iterated key ends up marked. -/
theorem topoOuter_acyclic_spec (reg : Registry)
    (hacyc : ∀ a, ¬ Relation.TransGen (Edge reg) a a) :
    ∀ (ks : List String) (s : DfsState) (g : CellGrid),
      DfsInv reg s → s.recStack = [] →
      DfsInv reg (topoOuter reg ks s g).1
        ∧ (topoOuter reg ks s g).1.recStack = []
        ∧ (∀ y, y ∈ s.marked → y ∈ (topoOuter reg ks s g).1.marked)
        ∧ (∀ k ∈ ks, k ∈ (topoOuter reg ks s g).1.marked) := by
  intro ks
  induction ks with
  | nil =>
      intro s g hInv hrec
      exact ⟨hInv, hrec, fun y hy => hy,
        fun k hk => absurd hk (List.not_mem_nil k)⟩
  | cons k ks ih =>
      intro s g hInv hrec
      by_cases hk : k ∈ s.marked
      · have hred : topoOuter reg (k :: ks) s g = topoOuter reg ks s g := by
          simp [topoOuter, hk]
        rw [hred]
        obtain ⟨h1, h2, h3, h4⟩ := ih s g hInv hrec
        refine ⟨h1, h2, h3, ?_⟩
        intro k2 hk2
        rcases List.mem_cons.mp hk2 with rfl | h
        · exact h3 k2 hk
        · exact h4 k2 h
      · have hfuel : (reg.maxDeps + 1) *
            ((reg.allDeps.filter (fun y => y ∉ s.marked)).card + 1)
            ≤ dfsFuel reg := by
          unfold dfsFuel
          have hcard := Finset.card_filter_le reg.allDeps
            (fun y => y ∉ s.marked)
          exact Nat.mul_le_mul_left _ (by omega)
        have hpath : ∀ r ∈ s.recStack,
            Relation.ReflTransGen (Edge reg) r k := by
          rw [hrec]
          intro r hr
          exact absurd hr (List.not_mem_nil r)
        obtain ⟨s2, heq, hrec2, hmono, hkm, hInv2⟩ :=
          dfs_helper_acyclic_spec reg hacyc (dfsFuel reg) k s hInv hk
            hpath hfuel
        have hred : topoOuter reg (k :: ks) s g = topoOuter reg ks s2 g := by
          simp [topoOuter, hk, heq]
        rw [hred]
        obtain ⟨h1, h2, h3, h4⟩ := ih s2 g hInv2 (by rw [hrec2]; exact hrec)
        refine ⟨h1, h2, fun y hy => h3 y (hmono y hy), ?_⟩
        intro k2 hk2
        rcases List.mem_cons.mp hk2 with rfl | h
        · exact h3 k2 hkm
        · exact h4 k2 h

/-- The order returned by the topological sort on an acyclic dependency
graph, for any key iteration order covering the registry's keys: it has no
duplicates, contains every key, and places every address strictly before
each of its dependents. -/
theorem topoRes_acyclic_order (reg : Registry) (order : List String)
    (g : CellGrid)
    (hacyc : ∀ a, ¬ Relation.TransGen (Edge reg) a a)
    (hcov : ∀ k ∈ reg.keys, k ∈ order) :
    (topoRes reg order g).Nodup
    ∧ (∀ k ∈ reg.keys, k ∈ topoRes reg order g)
    ∧ ∀ x w, Edge reg x w → before (topoRes reg order g) x w := by
  have hInit : DfsInv reg dfsInit := by
    constructor
    · intro r hr; exact absurd hr (List.not_mem_nil r)
    · intro y hy; exact absurd hy (List.not_mem_nil y)
    · exact List.nodup_nil
    · intro u hu; exact absurd hu (List.not_mem_nil u)
  obtain ⟨hInv, hrec, _hmono, hcov2⟩ :=
    topoOuter_acyclic_spec reg hacyc order dfsInit g hInit rfl
  refine ⟨hInv.resNodup, ?_, ?_⟩
  · intro k hk
    exact (hInv.finished k (hcov2 k (hcov k hk))
      (by rw [hrec]; exact List.not_mem_nil k)).1
  · intro x w hE
    have hxm := hcov2 x (hcov x (mem_keys_of_edge hE))
    exact ((hInv.finished x hxm
      (by rw [hrec]; exact List.not_mem_nil x)).2 w hE).2.2

/-- The evaluator's stored value is an integer or `Error`, never `Empty`. -/
theorem calcTokens_ne_empty (ts : List String) :
    calcTokens ts ≠ CellValue.empty := by
  unfold calcTokens
  split <;> simp

/-- Writing a non-`Empty` value preserves `GoodGrid`. -/
theorem goodGrid_gridSet {g : CellGrid} {p : Int × Int} {v : CellValue}
    (hg : GoodGrid g) (hv : v ≠ CellValue.empty) : GoodGrid (gridSet g p v) := by
  intro q w h
  unfold gridSet at h
  split at h
  · cases h; exact hv
  · exact hg q w h

/-- A fold preserves any invariant its step preserves. -/
theorem foldl_preserves {α σ : Type _} (P : σ → Prop) (f : σ → α → σ)
    (h : ∀ s a, P s → P (f s a)) :
    ∀ (l : List α) (s : σ), P s → P (l.foldl f s) := by
  intro l
  induction l with
  | nil => intro s hs; exact hs
  | cons a l ih => intro s hs; exact ih (f s a) (h s a hs)

/-- `parse_tokens` preserves `GoodGrid`: the formula branch leaves the grid
untouched and the plain branch writes an evaluator result. -/
theorem parse_tokens_good (st : SState) (coords : Int × Int) (c : String)
    (hg : GoodGrid st.cells) : GoodGrid (parse_tokens st coords c).cells := by
  unfold parse_tokens
  split
  · exact hg
  · exact goodGrid_gridSet hg (calcTokens_ne_empty _)

/-- The load phase preserves `GoodGrid`. -/
theorem loadRows_good (rows : List (List String)) :
    GoodGrid (loadRows rows).cells := by
  unfold loadRows
  refine foldl_preserves (fun st : SState => GoodGrid st.cells) _ ?_ _ _ ?_
  · intro s a hs
    unfold loadRow
    refine foldl_preserves (fun st : SState => GoodGrid st.cells) _ ?_ _ _ hs
    intro s2 a2 hs2
    exact parse_tokens_good _ _ _ hs2
  · intro p v h
    cases h

/-- Cycle marking writes only `Error`, preserving `GoodGrid`. -/
theorem markErrors_good (res : List String) (g : CellGrid)
    (hg : GoodGrid g) : GoodGrid (markErrors res g) := by
  unfold markErrors
  refine foldl_preserves GoodGrid _ ?_ _ _ hg
  intro s a hs
  exact goodGrid_gridSet hs (by simp)

/-- The key loop of the topological sort preserves `GoodGrid` (the grid is
only touched by `markErrors`). -/
theorem topoOuter_good (reg : Registry) (ks : List String) (s : DfsState)
    (g : CellGrid) (hg : GoodGrid g) : GoodGrid (topoOuter reg ks s g).2 := by
  induction ks generalizing s g with
  | nil => exact hg
  | cons k ks ih =>
      unfold topoOuter
      split
      · exact ih s g hg
      · apply ih
        split
        · exact markErrors_good _ _ hg
        · exact hg

/-- One resolution step preserves `GoodGrid`. -/
theorem resolveStep_good (st : SState) (addr : String)
    (hg : GoodGrid st.cells) : GoodGrid (resolveStep st addr).cells := by
  simp only [resolveStep]
  split
  · exact hg
  · exact goodGrid_gridSet hg (calcTokens_ne_empty _)

/-- The full pipeline never stores `Empty`. -/
theorem runSpreadsheet_good (rows : List (List String))
    (order : List String) : GoodGrid (runSpreadsheet rows order) := by
  simp only [runSpreadsheet, resolve_dependencies]
  refine foldl_preserves (fun st : SState => GoodGrid st.cells) resolveStep
    ?_ _ _ ?_
  · intro s a hs
    exact resolveStep_good s a hs
  · exact topoOuter_good _ _ _ _ (loadRows_good rows)

/-- Claim C10: no operation ever stores the `Empty` variant in the grid —
after loading, and after the whole load-and-resolve pipeline under any key
iteration order, every present coordinate holds an integer or `Error`; and
a cell whose raw text is empty or all-whitespace is stored as `Error`. -/
theorem C10_grid_never_stores_empty :
    (∀ rows order p v, runSpreadsheet rows order p = some v →
        v = CellValue.error ∨ ∃ n, v = CellValue.int n)
    ∧ (∀ rows p v, (loadRows rows).cells p = some v →
        v = CellValue.error ∨ ∃ n, v = CellValue.int n)
    ∧ (loadRows [[""]]).cells (0, 0) = some CellValue.error
    ∧ (loadRows [["  "]]).cells (0, 0) = some CellValue.error := by
  refine ⟨?_, ?_, by decide, by decide⟩
  · intro rows order p v h
    have hne := runSpreadsheet_good rows order p v h
    cases v with
    | int n => exact Or.inr ⟨n, rfl⟩
    | empty => exact absurd rfl hne
    | error => exact Or.inl rfl
  · intro rows p v h
    have hne := loadRows_good rows p v h
    cases v with
    | int n => exact Or.inr ⟨n, rfl⟩
    | empty => exact absurd rfl hne
    | error => exact Or.inl rfl

/-- Witness for claim C10 at a concrete run: the plain cell `3 4 +` stores
the integer `7`, which the claim's disjunction classifies as an integer. -/
theorem C10_witness :
    CellValue.int 7 = CellValue.error ∨ ∃ n, CellValue.int 7 = CellValue.int n :=
  C10_grid_never_stores_empty.1 [["3 4 +"]] [] (0, 0) (CellValue.int 7)
    (by decide)

/-- Claim C9: with A0 = `B5 1 +` and B5 never written, A0 resolves to
`Error` while B5's coordinate `(1, 5)` stays absent from the grid (the
`Empty` state), for both iteration orders over the registry's two keys. -/
theorem C9_undefined_reference_local_error :
    (runSpreadsheet [["B5 1 +"]] ["A0", "B5"] (0, 0) = some CellValue.error
      ∧ runSpreadsheet [["B5 1 +"]] ["A0", "B5"] (1, 5) = none)
    ∧ (runSpreadsheet [["B5 1 +"]] ["B5", "A0"] (0, 0) = some CellValue.error
      ∧ runSpreadsheet [["B5 1 +"]] ["B5", "A0"] (1, 5) = none) := by
  exact ⟨⟨by decide, by decide⟩, ⟨by decide, by decide⟩⟩

/-- A rank function certifies acyclicity: when every dependency edge
strictly increases the rank, the edge relation admits no cycle. -/
theorem acyclic_of_rank (reg : Registry) (rank : String → Nat)
    (h : ∀ a b, Edge reg a b → rank a < rank b) :
    ∀ a, ¬ Relation.TransGen (Edge reg) a a := by
  have mono : ∀ a b, Relation.TransGen (Edge reg) a b → rank a < rank b := by
    intro a b hab
    induction hab with
    | single h1 => exact h _ _ h1
    | tail _ h2 ih => exact lt_trans ih (h _ _ h2)
  intro a ha
  exact lt_irrefl _ (mono a a ha)

/-- Claim C4: for every input whose dependency graph is acyclic and every
iteration order covering the registry's keys, the order returned by the
topological sort — the exact list the resolution phase then folds over —
has no duplicates, contains every registered address, and places every
address strictly before each of its dependents, so each formula cell is
evaluated strictly after all cells its formula references. -/
theorem C4_acyclic_topological_order (rows : List (List String))
    (order : List String) (g : CellGrid)
    (hacyc : ∀ a, ¬ Relation.TransGen (Edge (loadRows rows).reg) a a)
    (hcov : ∀ k ∈ (loadRows rows).reg.keys, k ∈ order) :
    (topoRes (loadRows rows).reg order g).Nodup
    ∧ (∀ k ∈ (loadRows rows).reg.keys,
        k ∈ topoRes (loadRows rows).reg order g)
    ∧ ∀ x w, Edge (loadRows rows).reg x w →
        before (topoRes (loadRows rows).reg order g) x w :=
  topoRes_acyclic_order (loadRows rows).reg order g hacyc hcov

/-- Witness for claim C4 at Scenario B (A0 = `5`, A1 = `A0 2 *`): the graph
with the single edge A0 → A1 is acyclic, and the returned order places A0
before its dependent A1. -/
theorem C4_witness_scenario_b :
    before (topoRes (loadRows [["5"], ["A0 2 *"]]).reg ["A1", "A0"]
      emptyGrid) "A0" "A1" := by
  have hreg : (loadRows [["5"], ["A0 2 *"]]).reg
      = ⟨[("A1", "A0 2 *", []), ("A0", "", ["A1"])]⟩ := by rfl
  have hacyc : ∀ a,
      ¬ Relation.TransGen (Edge (loadRows [["5"], ["A0 2 *"]]).reg) a a := by
    apply acyclic_of_rank _ (fun s => if s = "A0" then 0 else 1)
    intro a b hE
    have hE2 : b ∈ ((loadRows [["5"], ["A0 2 *"]]).reg).depsOf a := hE
    rw [hreg] at hE2
    by_cases ha1 : a = "A1"
    · subst ha1
      simp [Registry.depsOf, Registry.find?, List.find?] at hE2
    · by_cases ha0 : a = "A0"
      · subst ha0
        have hb : b = "A1" := by
          simpa [Registry.depsOf, Registry.find?, List.find?] using hE2
        subst hb
        decide
      · exfalso
        have h1 : ("A1" == a) = false :=
          beq_eq_false_iff_ne.mpr (fun h => ha1 h.symm)
        have h0 : ("A0" == a) = false :=
          beq_eq_false_iff_ne.mpr (fun h => ha0 h.symm)
        simp [Registry.depsOf, Registry.find?, List.find?, h1, h0] at hE2
  exact (C4_acyclic_topological_order [["5"], ["A0 2 *"]] ["A1", "A0"]
    emptyGrid hacyc (by decide)).2.2 "A0" "A1" (by decide)
